import Mathlib

/-!
Verification of the Barlow Twins audio SSL repository (`ABT_SSL_audio`).

This file gives a shallow embedding, over `ℚ`, of the numeric core of the
repository:

* `off_diagonal` — the flatten/view/slice trick extracting off-diagonal
  entries of a square matrix (`barlow/barlow.py`, `Barlow-Twins-HSIC/main.py`);
* the Barlow Twins loss of `BarlowTwins.forward` (`barlow/barlow.py`) and of
  the training loop in `Barlow-Twins-HSIC/main.py`;
* the weighted kNN test of `Barlow-Twins-HSIC/main.py`;
* the linear-evaluation epoch of `Barlow-Twins-HSIC/linear.py`;
* the trainer's schedule application, checkpointing and loss-finiteness
  guard (`barlow/barlow.py`).

Real-valued square roots and exponentials appearing in the sources are
represented by explicit function parameters (`sq`, `ex`); theorems that need
them to behave like `Real.sqrt` / `Real.exp` state the required facts as
hypotheses at the points where they are used.
-/

/-! ## Row-major flattening and `off_diagonal`

`off_diagonal` in `barlow/barlow.py` (lines 230-234) and
`Barlow-Twins-HSIC/main.py` (lines 24-28):

    n, m = x.shape
    assert n == m
    return x.flatten()[:-1].view(n - 1, n + 1)[:, 1:].flatten()
-/

/-- Row-major flattening of an `n × m` matrix, as `x.flatten()` produces for a
contiguous 2-D tensor: the rows concatenated in order. -/
def flattenRM (n m : ℕ) (x : Matrix (Fin n) (Fin m) ℚ) : List ℚ :=
  ((List.finRange n).map fun i => (List.finRange m).map fun j => x i j).flatten

/-- The flat index selected by `view(n - 1, n + 1)[:, 1:].flatten()` at
position `q` of the result: row `q / n`, column `1 + q % n` of the
`(n-1) × (n+1)` view, i.e. flat position `(q / n) * (n + 1) + q % n + 1`. -/
def pIdx (n q : ℕ) : ℕ :=
  q / n * (n + 1) + q % n + 1

/-- `off_diagonal` on a square matrix (the branch after the `assert`):
`x.flatten()[:-1].view(n - 1, n + 1)[:, 1:].flatten()`. -/
def off_diagonal_sq (n : ℕ) (x : Matrix (Fin n) (Fin n) ℚ) : List ℚ :=
  List.ofFn fun q : Fin ((n - 1) * n) =>
    ((flattenRM n n x).dropLast).getD (pIdx n q.val) 0

/-- `off_diagonal` with the shape `assert n == m` modelled as an `Option`:
`none` is the failed assertion. -/
def off_diagonal (n m : ℕ) (x : Matrix (Fin n) (Fin m) ℚ) : Option (List ℚ) :=
  if h : n = m then
    some (off_diagonal_sq n fun i j => x i (Fin.cast h j))
  else
    none

lemma getD_flatten_uniform (m : ℕ) :
    ∀ (rows : List (List ℚ)), (∀ r ∈ rows, r.length = m) →
      ∀ p : ℕ, p < rows.length * m →
        rows.flatten.getD p 0 = (rows.getD (p / m) []).getD (p % m) 0 := by
  intro rows
  induction rows with
  | nil =>
    intro _ p hp
    simp at hp
  | cons r rs ih =>
    intro hlen p hp
    have hr : r.length = m := hlen r (List.mem_cons_self r rs)
    have hm : 0 < m := by
      rcases Nat.eq_zero_or_pos m with h0 | h0
      · subst h0; simp at hp
      · exact h0
    rcases Nat.lt_or_ge p m with hpm | hpm
    · have hdiv : p / m = 0 := Nat.div_eq_of_lt hpm
      have hmod : p % m = p := Nat.mod_eq_of_lt hpm
      rw [List.flatten_cons]
      rw [List.getD_eq_getElem?_getD, List.getElem?_append_left (by omega),
        ← List.getD_eq_getElem?_getD, hdiv, hmod]
      rfl
    · obtain ⟨t, rfl⟩ : ∃ t, p = t + m := ⟨p - m, by omega⟩
      have hdiv : (t + m) / m = t / m + 1 := Nat.add_div_right t hm
      have hmod : (t + m) % m = t % m := by
        rw [Nat.add_mod_right]
      have ht : t < rs.length * m := by
        have := hp
        rw [List.length_cons, Nat.succ_mul] at this
        omega
      rw [List.flatten_cons]
      rw [List.getD_eq_getElem?_getD, List.getElem?_append_right (by omega),
        ← List.getD_eq_getElem?_getD, hr]
      have := ih (fun l hl => hlen l (List.mem_cons_of_mem r hl)) t ht
      rw [Nat.add_sub_cancel, this, hdiv, hmod]
      rfl

lemma flattenRM_length (n m : ℕ) (x : Matrix (Fin n) (Fin m) ℚ) :
    (flattenRM n m x).length = n * m := by
  unfold flattenRM
  rw [List.length_flatten, List.map_map]
  have hconst : (List.length ∘ fun i => (List.finRange m).map fun j => x i j) =
      Function.const (Fin n) m := by
    funext i
    simp [Function.const]
  rw [hconst, List.map_const, List.sum_replicate, List.length_finRange,
    smul_eq_mul]

lemma flattenRM_getD (n m : ℕ) (x : Matrix (Fin n) (Fin m) ℚ) (p : ℕ)
    (hi : p / m < n) (hj : p % m < m) :
    (flattenRM n m x).getD p 0 = x ⟨p / m, hi⟩ ⟨p % m, hj⟩ := by
  have hm : 0 < m := lt_of_le_of_lt (Nat.zero_le _) hj
  have hp : p < n * m := by
    rw [← Nat.div_lt_iff_lt_mul hm] at *
    exact hi
  unfold flattenRM
  have hrows : ∀ r ∈ (List.finRange n).map fun i =>
      (List.finRange m).map fun j => x i j, r.length = m := by
    intro r hr
    simp only [List.mem_map] at hr
    obtain ⟨i, -, rfl⟩ := hr
    simp
  rw [getD_flatten_uniform m _ hrows p (by simpa using hp)]
  have houter : ((List.finRange n).map fun i =>
      (List.finRange m).map fun j => x i j).getD (p / m) [] =
      (List.finRange m).map fun j => x ⟨p / m, hi⟩ j := by
    rw [List.getD_eq_getElem _ _ (by simpa using hi), List.getElem_map,
      List.getElem_finRange]
    simp
  rw [houter, List.getD_eq_getElem _ _ (by simpa using hj), List.getElem_map,
    List.getElem_finRange]
  simp

lemma two_le_of_lt_offlen {n q : ℕ} (hq : q < (n - 1) * n) : 2 ≤ n := by
  rcases n with _ | _ | k
  · simp at hq
  · simp at hq
  · omega

lemma pIdx_lt {n q : ℕ} (hq : q < (n - 1) * n) : pIdx n q < n * n - 1 := by
  have hn : 2 ≤ n := two_le_of_lt_offlen hq
  have hn0 : 0 < n := by omega
  have ha : q / n < n - 1 := (Nat.div_lt_iff_lt_mul hn0).mpr hq
  have hb : q % n < n := Nat.mod_lt _ hn0
  unfold pIdx
  have h1 : q / n * (n + 1) + q % n + 1 < (q / n + 1) * (n + 1) := by
    rw [Nat.add_mul, Nat.one_mul]
    omega
  have h2 : (q / n + 1) * (n + 1) ≤ (n - 1) * (n + 1) :=
    Nat.mul_le_mul_right _ (by omega)
  have h3 : (n - 1) * (n + 1) = n * n - 1 := by
    rw [Nat.sub_one_mul, Nat.mul_add, Nat.mul_one]
    omega
  omega

lemma pIdx_div_mod {n q : ℕ} (hq : q < (n - 1) * n) :
    pIdx n q / (n + 1) = q / n ∧ pIdx n q % (n + 1) = q % n + 1 := by
  have hn : 2 ≤ n := two_le_of_lt_offlen hq
  have hn0 : 0 < n := by omega
  have hb : q % n < n := Nat.mod_lt _ hn0
  unfold pIdx
  have hre : q / n * (n + 1) + q % n + 1 = (n + 1) * (q / n) + (q % n + 1) := by
    ring
  rw [hre]
  constructor
  · rw [@Nat.mul_add_div (n + 1) (by omega) (q / n) (q % n + 1),
      @Nat.div_eq_of_lt (q % n + 1) (n + 1) (by omega), Nat.add_zero]
  · rw [Nat.mul_add_mod, Nat.mod_eq_of_lt (by omega)]

/-- The row index read back off the flat position: `pIdx n q / n`. -/
def offI (n : ℕ) (q : Fin ((n - 1) * n)) : Fin n :=
  ⟨pIdx n q.val / n, by
    have hq := q.isLt
    have hn : 2 ≤ n := two_le_of_lt_offlen hq
    have hp : pIdx n q.val < n * n - 1 := pIdx_lt hq
    exact (Nat.div_lt_iff_lt_mul (by omega)).mpr (by omega)⟩

/-- The column index read back off the flat position: `pIdx n q % n`. -/
def offJ (n : ℕ) (q : Fin ((n - 1) * n)) : Fin n :=
  ⟨pIdx n q.val % n, by
    have hq := q.isLt
    have hn : 2 ≤ n := two_le_of_lt_offlen hq
    exact Nat.mod_lt _ (by omega)⟩

lemma off_diagonal_sq_eq_ofFn (n : ℕ) (x : Matrix (Fin n) (Fin n) ℚ) :
    off_diagonal_sq n x = List.ofFn fun q => x (offI n q) (offJ n q) := by
  unfold off_diagonal_sq
  congr 1
  funext q
  have hq := q.isLt
  have hn : 2 ≤ n := two_le_of_lt_offlen hq
  have hplt : pIdx n q.val < n * n - 1 := pIdx_lt hq
  have h1 : pIdx n q.val < (flattenRM n n x).dropLast.length := by
    rw [List.length_dropLast, flattenRM_length]
    exact hplt
  have h2 : pIdx n q.val < (flattenRM n n x).length := by
    rw [flattenRM_length]
    omega
  rw [List.getD_eq_getElem _ _ h1, List.getElem_dropLast,
    ← List.getD_eq_getElem _ _ h2]
  exact flattenRM_getD n n x _ (offI n q).isLt (offJ n q).isLt

lemma offIJ_injective (n : ℕ) :
    Function.Injective fun q : Fin ((n - 1) * n) => (offI n q, offJ n q) := by
  intro q1 q2 h
  rw [Prod.ext_iff] at h
  obtain ⟨hI, hJ⟩ := h
  have hIv : pIdx n q1.val / n = pIdx n q2.val / n := congrArg Fin.val hI
  have hJv : pIdx n q1.val % n = pIdx n q2.val % n := congrArg Fin.val hJ
  have hp : pIdx n q1.val = pIdx n q2.val := by
    calc pIdx n q1.val = n * (pIdx n q1.val / n) + pIdx n q1.val % n :=
          (Nat.div_add_mod _ _).symm
      _ = n * (pIdx n q2.val / n) + pIdx n q2.val % n := by rw [hIv, hJv]
      _ = pIdx n q2.val := Nat.div_add_mod _ _
  have h1 := pIdx_div_mod q1.isLt
  have h2 := pIdx_div_mod q2.isLt
  have hdiv : q1.val / n = q2.val / n := by
    rw [← h1.1, ← h2.1, hp]
  have hmod : q1.val % n = q2.val % n := by
    have e1 := h1.2
    have e2 := h2.2
    rw [hp] at e1
    omega
  apply Fin.ext
  calc q1.val = n * (q1.val / n) + q1.val % n := (Nat.div_add_mod _ _).symm
    _ = n * (q2.val / n) + q2.val % n := by rw [hdiv, hmod]
    _ = q2.val := Nat.div_add_mod _ _

lemma offI_ne_offJ (n : ℕ) (q : Fin ((n - 1) * n)) : offI n q ≠ offJ n q := by
  intro h
  have hv : pIdx n q.val / n = pIdx n q.val % n := congrArg Fin.val h
  have hfac : pIdx n q.val = (pIdx n q.val % n) * (n + 1) := by
    calc pIdx n q.val = n * (pIdx n q.val / n) + pIdx n q.val % n :=
          (Nat.div_add_mod _ _).symm
      _ = (pIdx n q.val % n) * (n + 1) := by rw [hv]; ring
  have hmod0 : pIdx n q.val % (n + 1) = 0 := by
    rw [hfac]
    exact Nat.mul_mod_left _ _
  have := (pIdx_div_mod q.isLt).2
  omega

/-- The multiset of off-diagonal index pairs of an `n × n` matrix. -/
def offDiagPairs (n : ℕ) : Finset (Fin n × Fin n) :=
  Finset.filter (fun p : Fin n × Fin n => p.1 ≠ p.2) Finset.univ

lemma card_offDiagPairs (n : ℕ) : (offDiagPairs n).card = n * n - n := by
  have h : offDiagPairs n = (Finset.univ : Finset (Fin n)).offDiag := by
    ext p
    simp [offDiagPairs, Finset.mem_offDiag]
  rw [h, Finset.offDiag_card, Finset.card_univ, Fintype.card_fin]

lemma off_diagonal_sq_multiset (n : ℕ) (x : Matrix (Fin n) (Fin n) ℚ) :
    (off_diagonal_sq n x : Multiset ℚ) =
      Multiset.map (fun p : Fin n × Fin n => x p.1 p.2) (offDiagPairs n).val := by
  have hinj : Function.Injective fun q : Fin ((n - 1) * n) => (offI n q, offJ n q) :=
    offIJ_injective n
  have himage : Finset.image (fun q : Fin ((n - 1) * n) => (offI n q, offJ n q))
      Finset.univ = offDiagPairs n := by
    apply Finset.eq_of_subset_of_card_le
    · intro p hp
      simp only [Finset.mem_image] at hp
      obtain ⟨q, -, rfl⟩ := hp
      unfold offDiagPairs
      simp only [Finset.mem_filter, Finset.mem_univ, true_and]
      exact offI_ne_offJ n q
    · rw [Finset.card_image_of_injective _ hinj, Finset.card_univ,
        Fintype.card_fin, card_offDiagPairs, Nat.sub_one_mul]
  calc (off_diagonal_sq n x : Multiset ℚ)
      = Multiset.map (fun q => x (offI n q) (offJ n q))
          (Finset.univ : Finset (Fin ((n - 1) * n))).val := by
        have huval : (Finset.univ : Finset (Fin ((n - 1) * n))).val =
            (List.finRange ((n - 1) * n) : Multiset (Fin ((n - 1) * n))) := by
          rw [Fin.univ_def]
        rw [off_diagonal_sq_eq_ofFn, huval, Multiset.map_coe, List.ofFn_eq_map]
    _ = Multiset.map ((fun p : Fin n × Fin n => x p.1 p.2) ∘
          fun q => (offI n q, offJ n q)) Finset.univ.val := rfl
    _ = Multiset.map (fun p : Fin n × Fin n => x p.1 p.2)
          (Multiset.map (fun q => (offI n q, offJ n q)) Finset.univ.val) :=
        (Multiset.map_map _ _ _).symm
    _ = Multiset.map (fun p : Fin n × Fin n => x p.1 p.2) (offDiagPairs n).val := by
        rw [← Finset.image_val_of_injOn (Function.Injective.injOn hinj), himage]

lemma off_diagonal_sq_length (n : ℕ) (x : Matrix (Fin n) (Fin n) ℚ) :
    (off_diagonal_sq n x).length = n * (n - 1) := by
  unfold off_diagonal_sq
  rw [List.length_ofFn, Nat.mul_comm]

lemma off_diagonal_sq_sum_map (n : ℕ) (x : Matrix (Fin n) (Fin n) ℚ) (f : ℚ → ℚ) :
    ((off_diagonal_sq n x).map f).sum = ∑ p ∈ offDiagPairs n, f (x p.1 p.2) := by
  rw [Finset.sum_eq_multiset_sum]
  have h1 : ((off_diagonal_sq n x).map f).sum =
      (Multiset.map f (off_diagonal_sq n x : Multiset ℚ)).sum := by
    rw [Multiset.map_coe, Multiset.sum_coe]
  rw [h1, off_diagonal_sq_multiset, Multiset.map_map]
  rfl

lemma off_diagonal_square (n : ℕ) (x : Matrix (Fin n) (Fin n) ℚ) :
    off_diagonal n n x = some (off_diagonal_sq n x) := by
  simp [off_diagonal]

/-! ## The Barlow Twins losses

`BarlowTwins.forward` in `barlow/barlow.py` (lines 213-227) normalizes the
projected embeddings with `nn.BatchNorm1d(sizes[-1], affine=False)` (training
mode: per-dimension batch mean, biased batch variance, `eps = 1e-5` inside the
square root) and computes

    c = self.bn(z1).T @ self.bn(z2)
    c.div_(z1.shape[0])
    on_diag = torch.diagonal(c).add_(-1).pow_(2).sum()
    off_diag = off_diagonal(c).pow_(2).sum()
    loss = on_diag + self.lambd * off_diag

The training loop in `Barlow-Twins-HSIC/main.py` (lines 41-61) instead
normalizes by `(out - out.mean(dim=0)) / out.std(dim=0)` — `torch.std` uses
the *unbiased* variance (division by `N - 1`) and no epsilon — and computes
the same correlation/loss shape (`corr_neg_one = False` branch).

The square root is a function parameter `sq : ℚ → ℚ`; `torch.distributed`
reduction is the identity in the single-process setting considered here.
-/

/-- Per-dimension batch mean of an `N × D` batch of embeddings. -/
def batchMean (N D : ℕ) (x : Matrix (Fin N) (Fin D) ℚ) (j : Fin D) : ℚ :=
  (∑ b, x b j) / N

/-- Per-dimension biased batch variance (division by `N`), as used by
`nn.BatchNorm1d` in training mode. -/
def biasedVar (N D : ℕ) (x : Matrix (Fin N) (Fin D) ℚ) (j : Fin D) : ℚ :=
  (∑ b, (x b j - batchMean N D x j) ^ 2) / N

/-- Per-dimension unbiased batch variance (division by `N - 1`), as used by
`torch.std(dim=0)`. -/
def unbiasedVar (N D : ℕ) (x : Matrix (Fin N) (Fin D) ℚ) (j : Fin D) : ℚ :=
  (∑ b, (x b j - batchMean N D x j) ^ 2) / ((N - 1 : ℕ) : ℚ)

/-- `self.bn(z)` for `self.bn = nn.BatchNorm1d(D, affine=False)` in training
mode: `(z - mean) / sq(biased variance + eps)`. -/
def batchNorm (sq : ℚ → ℚ) (eps : ℚ) (N D : ℕ) (x : Matrix (Fin N) (Fin D) ℚ) :
    Matrix (Fin N) (Fin D) ℚ :=
  fun b j => (x b j - batchMean N D x j) / sq (biasedVar N D x j + eps)

/-- `(out - out.mean(dim=0)) / out.std(dim=0)` from
`Barlow-Twins-HSIC/main.py` lines 42-43. -/
def stdNorm (sq : ℚ → ℚ) (N D : ℕ) (x : Matrix (Fin N) (Fin D) ℚ) :
    Matrix (Fin N) (Fin D) ℚ :=
  fun b j => (x b j - batchMean N D x j) / sq (unbiasedVar N D x j)

/-- `c = self.bn(z1).T @ self.bn(z2); c.div_(z1.shape[0])` from
`BarlowTwins.forward` (single process: `all_reduce` is the identity). -/
def crossCorr (sq : ℚ → ℚ) (eps : ℚ) (N D : ℕ)
    (z1 z2 : Matrix (Fin N) (Fin D) ℚ) : Matrix (Fin D) (Fin D) ℚ :=
  fun i j => (Matrix.transpose (batchNorm sq eps N D z1) * batchNorm sq eps N D z2) i j / N

/-- The loss of `BarlowTwins.forward` in `barlow/barlow.py` (lines 213-227). -/
def bt_forward (sq : ℚ → ℚ) (eps lambd : ℚ) (N D : ℕ)
    (z1 z2 : Matrix (Fin N) (Fin D) ℚ) : ℚ :=
  let c := crossCorr sq eps N D z1 z2
  let on_diag := ∑ i, (c i i - 1) ^ 2
  let off_diag := ((off_diagonal_sq D c).map fun v => v ^ 2).sum
  on_diag + lambd * off_diag

/-- The loss computed in the training loop of `Barlow-Twins-HSIC/main.py`
(lines 41-61), single process (`distributed = False`). -/
def bt_loss_std (sq : ℚ → ℚ) (lambd : ℚ) (corr_neg_one : Bool) (N D : ℕ)
    (z1 z2 : Matrix (Fin N) (Fin D) ℚ) : ℚ :=
  let c : Matrix (Fin D) (Fin D) ℚ :=
    fun i j => (Matrix.transpose (stdNorm sq N D z1) * stdNorm sq N D z2) i j / N
  let on_diag := ∑ i, (c i i - 1) ^ 2
  let off_diag :=
    if corr_neg_one then ((off_diagonal_sq D c).map fun v => (v + 1) ^ 2).sum
    else ((off_diagonal_sq D c).map fun v => v ^ 2).sum
  on_diag + lambd * off_diag

lemma off_diagonal_sq_one (x : Matrix (Fin 1) (Fin 1) ℚ) :
    off_diagonal_sq 1 x = [] := by
  have h := off_diagonal_sq_length 1 x
  simpa using List.eq_nil_of_length_eq_zero (by simpa using h)

/-- C1: `BarlowTwins.forward` returns `on_diag + lambd * off_diag`, where
`on_diag` sums `(c i i - 1) ^ 2` over the diagonal of the batch-size-divided
cross-correlation matrix `c` of the batch-normalized embeddings, and
`off_diag` sums `c i j ^ 2` over all off-diagonal entries — every deviation
of `c` from the identity is penalized. -/
theorem C1_barlow_loss_spec (sq : ℚ → ℚ) (eps lambd : ℚ) (N D : ℕ)
    (z1 z2 : Matrix (Fin N) (Fin D) ℚ) :
    bt_forward sq eps lambd N D z1 z2 =
      (∑ i, (crossCorr sq eps N D z1 z2 i i - 1) ^ 2) +
        lambd * ∑ i, ∑ j,
          (if i = j then 0 else crossCorr sq eps N D z1 z2 i j ^ 2) ∧
    ∀ i j, crossCorr sq eps N D z1 z2 i j =
      (∑ b, batchNorm sq eps N D z1 b i * batchNorm sq eps N D z2 b j) / N := by
  constructor
  · show (∑ i, (crossCorr sq eps N D z1 z2 i i - 1) ^ 2) +
      lambd * ((off_diagonal_sq D (crossCorr sq eps N D z1 z2)).map
        fun v => v ^ 2).sum = _
    congr 1
    congr 1
    rw [off_diagonal_sq_sum_map]
    calc ∑ p ∈ offDiagPairs D, crossCorr sq eps N D z1 z2 p.1 p.2 ^ 2
        = ∑ p : Fin D × Fin D,
            if p.1 ≠ p.2 then crossCorr sq eps N D z1 z2 p.1 p.2 ^ 2 else 0 :=
          Finset.sum_filter _ _
      _ = ∑ p : Fin D × Fin D,
            if p.1 = p.2 then 0 else crossCorr sq eps N D z1 z2 p.1 p.2 ^ 2 := by
          apply Finset.sum_congr rfl
          intro p _
          by_cases h : p.1 = p.2
          · simp [h]
          · simp [h]
      _ = ∑ i, ∑ j, if i = j then 0 else crossCorr sq eps N D z1 z2 i j ^ 2 :=
          Fintype.sum_prod_type _
  · intro i j
    unfold crossCorr
    rw [Matrix.mul_apply]
    rfl

/-- C9: for a square matrix, `off_diagonal` passes its `assert` and returns a
flattened list of length `n * (n - 1)` whose entries are exactly the
off-diagonal entries `x i j`, `i ≠ j`, each exactly once (a multiset
equality); for a non-square matrix the `assert n == m` fails. -/
theorem C9_off_diagonal_spec :
    (∀ n : ℕ, 1 ≤ n → ∀ x : Matrix (Fin n) (Fin n) ℚ,
      off_diagonal n n x = some (off_diagonal_sq n x) ∧
      (off_diagonal_sq n x).length = n * (n - 1) ∧
      (off_diagonal_sq n x : Multiset ℚ) =
        Multiset.map (fun p : Fin n × Fin n => x p.1 p.2) (offDiagPairs n).val) ∧
    (∀ n m : ℕ, n ≠ m → ∀ x : Matrix (Fin n) (Fin m) ℚ,
      off_diagonal n m x = none) := by
  constructor
  · intro n _ x
    exact ⟨off_diagonal_square n x, off_diagonal_sq_length n x,
      off_diagonal_sq_multiset n x⟩
  · intro n m hnm x
    unfold off_diagonal
    rw [dif_neg hnm]

/-- A concrete `2 × 2` matrix used to instantiate `C9_off_diagonal_spec`. -/
def exM2 : Matrix (Fin 2) (Fin 2) ℚ :=
  fun i j => ((i.val * 2 + j.val : ℕ) : ℚ)

/-- A concrete `2 × 3` matrix used to instantiate `C9_off_diagonal_spec`. -/
def exM23 : Matrix (Fin 2) (Fin 3) ℚ :=
  fun _ _ => 0

theorem C9_off_diagonal_witness :
    (1 ≤ 2 ∧
      off_diagonal 2 2 exM2 = some (off_diagonal_sq 2 exM2) ∧
      (off_diagonal_sq 2 exM2).length = 2 * (2 - 1) ∧
      (off_diagonal_sq 2 exM2 : Multiset ℚ) =
        Multiset.map (fun p : Fin 2 × Fin 2 => exM2 p.1 p.2) (offDiagPairs 2).val) ∧
    ((2 : ℕ) ≠ 3 ∧ off_diagonal 2 3 exM23 = none) :=
  ⟨⟨by norm_num, C9_off_diagonal_spec.1 2 (by norm_num) exM2⟩,
    ⟨by norm_num, C9_off_diagonal_spec.2 2 3 (by norm_num) exM23⟩⟩

/-- Square root values needed on the inputs of `C2_counterexample`:
`sqrt(16e-6) = 1/250` and `sqrt(9e-6) = 3/1000`. -/
def sqC2 : ℚ → ℚ :=
  fun q => if q = 16 / 1000000 then 1 / 250
    else if q = 9 / 1000000 then 3 / 1000 else 0

/-- A concrete batch (`N = 3`, `D = 1`) of projected embeddings. -/
def zC2 : Matrix (Fin 3) (Fin 1) ℚ :=
  fun b _ => if b.val = 0 then 3 / 1000 else if b.val = 1 then -3 / 1000 else 0

/-- C2 counterexample: on the batch `zC2` (mean `0`, biased variance `6e-6`,
unbiased variance `9e-6`), with a square root that is exact on both points
where it is evaluated, the `barlow/barlow.py` loss (BatchNorm: biased
variance plus `eps = 1e-5`) is `25/64` while the `Barlow-Twins-HSIC/main.py`
loss (unbiased std, no eps) is `1/9`: the two losses differ. -/
theorem C2_counterexample :
    0 ≤ sqC2 (16 / 1000000) ∧ sqC2 (16 / 1000000) ^ 2 = 16 / 1000000 ∧
    0 ≤ sqC2 (9 / 1000000) ∧ sqC2 (9 / 1000000) ^ 2 = 9 / 1000000 ∧
    biasedVar 3 1 zC2 0 + 1 / 100000 = 16 / 1000000 ∧
    unbiasedVar 3 1 zC2 0 = 9 / 1000000 ∧
    bt_forward sqC2 (1 / 100000) 1 3 1 zC2 zC2 = 25 / 64 ∧
    bt_loss_std sqC2 1 false 3 1 zC2 zC2 = 1 / 9 ∧
    bt_forward sqC2 (1 / 100000) 1 3 1 zC2 zC2 ≠
      bt_loss_std sqC2 1 false 3 1 zC2 zC2 := by
  have hbv : biasedVar 3 1 zC2 0 + 1 / 100000 = 16 / 1000000 := by
    norm_num [biasedVar, batchMean, zC2, Fin.sum_univ_succ]
  have huv : unbiasedVar 3 1 zC2 0 = 9 / 1000000 := by
    norm_num [unbiasedVar, batchMean, zC2, Fin.sum_univ_succ]
  have hfwd : bt_forward sqC2 (1 / 100000) 1 3 1 zC2 zC2 = 25 / 64 := by
    norm_num [bt_forward, crossCorr, batchNorm, biasedVar, batchMean,
      off_diagonal_sq_one, Matrix.mul_apply, sqC2, zC2, Fin.sum_univ_succ]
  have hstd : bt_loss_std sqC2 1 false 3 1 zC2 zC2 = 1 / 9 := by
    norm_num [bt_loss_std, stdNorm, unbiasedVar, batchMean,
      off_diagonal_sq_one, Matrix.mul_apply, sqC2, zC2, Fin.sum_univ_succ]
  refine ⟨by norm_num [sqC2], by norm_num [sqC2], by norm_num [sqC2],
    by norm_num [sqC2], hbv, huv, hfwd, hstd, ?_⟩
  rw [hfwd, hstd]
  norm_num

/-- C2 (amended): the two losses agree exactly when, for every embedding
dimension of either view, the biased batch variance plus the BatchNorm
epsilon equals the unbiased batch variance (so that both sides take the
square root of the same number); in particular they coincide whenever that
variance relation holds, and differ in general (`C2_counterexample`). -/
theorem C2_amended_losses_eq (sq : ℚ → ℚ) (eps lambd : ℚ) (N D : ℕ)
    (z1 z2 : Matrix (Fin N) (Fin D) ℚ)
    (h1 : ∀ j, biasedVar N D z1 j + eps = unbiasedVar N D z1 j)
    (h2 : ∀ j, biasedVar N D z2 j + eps = unbiasedVar N D z2 j) :
    bt_forward sq eps lambd N D z1 z2 = bt_loss_std sq lambd false N D z1 z2 := by
  have e1 : batchNorm sq eps N D z1 = stdNorm sq N D z1 := by
    funext b j
    unfold batchNorm stdNorm
    rw [h1 j]
  have e2 : batchNorm sq eps N D z2 = stdNorm sq N D z2 := by
    funext b j
    unfold batchNorm stdNorm
    rw [h2 j]
  unfold bt_forward bt_loss_std crossCorr
  rw [e1, e2]
  simp

/-- Square root value needed by `C2_amended_witness`: `sqrt(1e-4) = 1/100`. -/
def sqW : ℚ → ℚ :=
  fun q => if q = 1 / 10000 then 1 / 100 else 0

/-- A batch (`N = 10`, `D = 1`) whose biased variance plus `1e-5` equals its
unbiased variance (both `1e-4`). -/
def zW : Matrix (Fin 10) (Fin 1) ℚ :=
  fun b _ => if b.val ≤ 1 then 3 / 200 else if b.val ≤ 3 then -3 / 200 else 0

theorem C2_amended_witness :
    biasedVar 10 1 zW 0 + 1 / 100000 = unbiasedVar 10 1 zW 0 ∧
    bt_forward sqW (1 / 100000) 1 10 1 zW zW =
      bt_loss_std sqW 1 false 10 1 zW zW := by
  have h : ∀ j : Fin 1, biasedVar 10 1 zW j + 1 / 100000 = unbiasedVar 10 1 zW j := by
    intro j
    have hj : j = 0 := Subsingleton.elim j 0
    subst hj
    norm_num [biasedVar, unbiasedVar, batchMean, zW, Fin.sum_univ_succ]
  exact ⟨h 0, C2_amended_losses_eq sqW (1 / 100000) 1 10 1 zW zW h h⟩

/-! ## Weighted kNN test

`test` in `Barlow-Twins-HSIC/main.py` (lines 84-127): for each test feature,
`sim_matrix = torch.mm(feature, feature_bank)`, the `k` most similar bank
entries are selected (`topk`), each neighbor contributes weight
`exp(sim / temperature)` to its class (`one_hot * sim_weight` summed), and
the predicted label is the first class of `pred_scores.argsort(descending)`.
The exponential is the function parameter `ex`. -/

/-- One row of `torch.mm(feature, feature_bank)`: dot products of a test
feature against every memory-bank embedding. -/
def simRow (F Nmem : ℕ) (feat : Fin F → ℚ) (bank : Fin Nmem → Fin F → ℚ) :
    Fin Nmem → ℚ :=
  fun mIdx => ∑ d, feat d * bank mIdx d

/-- `sim_matrix.topk(k)` index list: all bank indices sorted by decreasing
similarity, truncated to the first `k`. -/
def topkIdx (Nmem k : ℕ) (s : Fin Nmem → ℚ) : List (Fin Nmem) :=
  (List.insertionSort (fun a b => s b ≤ s a) (List.finRange Nmem)).take k

/-- `pred_scores` for one test sample: the one-hot scatter of neighbor labels
weighted by `(sim / temperature).exp()`, summed over the `k` neighbors. -/
def predScores (Nmem C k : ℕ) (ex : ℚ → ℚ) (T : ℚ) (labels : Fin Nmem → Fin C)
    (s : Fin Nmem → ℚ) : Fin C → ℚ :=
  fun c => ((topkIdx Nmem k s).map fun mIdx =>
    if labels mIdx = c then ex (s mIdx / T) else 0).sum

/-- The predicted label: the first entry of
`pred_scores.argsort(descending=True)` (`none` only when there are no
classes). -/
def knnPredict (F Nmem C k : ℕ) (ex : ℚ → ℚ) (T : ℚ) (feat : Fin F → ℚ)
    (bank : Fin Nmem → Fin F → ℚ) (labels : Fin Nmem → Fin C) :
    Option (Fin C) :=
  (List.insertionSort
    (fun a b => predScores Nmem C k ex T labels (simRow F Nmem feat bank) b ≤
      predScores Nmem C k ex T labels (simRow F Nmem feat bank) a)
    (List.finRange C)).head?

/-- How often class `c` occurs among the `k` selected nearest neighbors
(the count a majority vote would use). -/
def countTopk (Nmem C k : ℕ) (labels : Fin Nmem → Fin C) (s : Fin Nmem → ℚ)
    (c : Fin C) : ℕ :=
  ((topkIdx Nmem k s).filter fun mIdx => decide (labels mIdx = c)).length

/-- C3 (amended): the predicted label is a class of *maximal total
similarity weight* `sum of ex(sim / T)` over the `k` nearest neighbors (a
weighted vote, not an unweighted majority vote), and the selected neighbors
are `k` most-similar ones: every selected index has similarity at least that
of every unselected index. -/
theorem C3_amended_weighted_vote (F Nmem C k : ℕ) (ex : ℚ → ℚ) (T : ℚ)
    (feat : Fin F → ℚ) (bank : Fin Nmem → Fin F → ℚ) (labels : Fin Nmem → Fin C)
    (c : Fin C) (hc : knnPredict F Nmem C k ex T feat bank labels = some c) :
    (∀ c2 : Fin C,
      predScores Nmem C k ex T labels (simRow F Nmem feat bank) c2 ≤
        predScores Nmem C k ex T labels (simRow F Nmem feat bank) c) ∧
    (∀ a ∈ topkIdx Nmem k (simRow F Nmem feat bank),
      ∀ b : Fin Nmem, b ∉ topkIdx Nmem k (simRow F Nmem feat bank) →
        simRow F Nmem feat bank b ≤ simRow F Nmem feat bank a) := by
  unfold knnPredict at hc
  constructor
  · set score := predScores Nmem C k ex T labels (simRow F Nmem feat bank)
      with hscore
    haveI : IsTotal (Fin C) fun a b => score b ≤ score a :=
      ⟨fun a b => le_total (score b) (score a)⟩
    haveI : IsTrans (Fin C) fun a b => score b ≤ score a :=
      ⟨fun a b c2 h1 h2 => le_trans h2 h1⟩
    have hsorted :=
      List.sorted_insertionSort (fun a b => score b ≤ score a) (List.finRange C)
    intro c2
    cases hl : List.insertionSort (fun a b => score b ≤ score a)
        (List.finRange C) with
    | nil =>
      rw [hl] at hc
      simp at hc
    | cons a tail =>
      rw [hl] at hc
      simp only [List.head?_cons, Option.some.injEq] at hc
      subst hc
      have hmem : c2 ∈ List.insertionSort (fun a b => score b ≤ score a)
          (List.finRange C) :=
        (List.perm_insertionSort _ (List.finRange C)).mem_iff.mpr
          (List.mem_finRange c2)
      rw [hl] at hmem hsorted
      rcases List.mem_cons.mp hmem with h | h
      · subst h
        exact le_refl _
      · exact List.rel_of_sorted_cons hsorted c2 h
  · set s := simRow F Nmem feat bank with hs
    haveI : IsTotal (Fin Nmem) fun a b => s b ≤ s a :=
      ⟨fun a b => le_total (s b) (s a)⟩
    haveI : IsTrans (Fin Nmem) fun a b => s b ≤ s a :=
      ⟨fun a b c2 h1 h2 => le_trans h2 h1⟩
    have hsorted :=
      List.sorted_insertionSort (fun a b => s b ≤ s a) (List.finRange Nmem)
    intro a ha b hb
    have hbmem : b ∈ List.insertionSort (fun a b => s b ≤ s a)
        (List.finRange Nmem) :=
      (List.perm_insertionSort _ (List.finRange Nmem)).mem_iff.mpr
        (List.mem_finRange b)
    have hsplit := List.take_append_drop k
      (List.insertionSort (fun a b => s b ≤ s a) (List.finRange Nmem))
    have hbdrop : b ∈ (List.insertionSort (fun a b => s b ≤ s a)
        (List.finRange Nmem)).drop k := by
      rcases List.mem_append.mp (by rw [hsplit]; exact hbmem) with h | h
      · exact absurd h (by simpa [topkIdx] using hb)
      · exact h
    have hpw : List.Pairwise (fun a b => s b ≤ s a)
        (List.insertionSort (fun a b => s b ≤ s a) (List.finRange Nmem)) :=
      hsorted
    rw [← hsplit] at hpw
    have hrel := (List.pairwise_append.mp hpw).2.2 a
      (by simpa [topkIdx] using ha) b hbdrop
    exact hrel

/-- Exponential values needed by the concrete kNN example: strictly
increasing and positive on the two similarity values that occur. -/
def exC : ℚ → ℚ :=
  fun q => if q = 2 then 5 else if q = 0 then 1 else 0

/-- Concrete test feature (`F = 1`). -/
def featC : Fin 1 → ℚ :=
  fun _ => 2

/-- Concrete memory bank (`Nmem = 3`): one embedding close to the test
feature, two orthogonal ones. -/
def bankC : Fin 3 → Fin 1 → ℚ :=
  fun mIdx _ => if mIdx.val = 0 then 1 else 0

/-- Concrete bank labels (`C = 2`): the close neighbor has class `1`, the two
far ones class `0`. -/
def labelsC : Fin 3 → Fin 2 :=
  fun mIdx => if mIdx.val = 0 then 1 else 0

/-- C3 counterexample: with `k = 3`, temperature `1`, and an exponential that
is positive and strictly increasing on the occurring similarities, the code
predicts class `1` (one high-similarity neighbor, weight `5`) although class
`0` occurs more often (twice, total weight `2`) among the `k` nearest
neighbors — the prediction is not a majority vote. -/
theorem C3_counterexample :
    0 < exC 0 ∧ 0 < exC 2 ∧ exC 0 < exC 2 ∧
    knnPredict 1 3 2 3 exC 1 featC bankC labelsC = some 1 ∧
    countTopk 3 2 3 labelsC (simRow 1 3 featC bankC) 1 <
      countTopk 3 2 3 labelsC (simRow 1 3 featC bankC) 0 := by
  have hsim : simRow 1 3 featC bankC = fun mIdx => if mIdx.val = 0 then 2 else 0 := by
    funext mIdx
    unfold simRow featC bankC
    by_cases h : mIdx.val = 0 <;> simp [h, Fin.sum_univ_succ]
  refine ⟨by norm_num [exC], by norm_num [exC], by norm_num [exC], ?_, ?_⟩
  · unfold knnPredict
    rw [hsim]
    norm_num [predScores, topkIdx, exC, labelsC, List.insertionSort,
      List.orderedInsert, List.finRange, List.ofFn, Fin.last]
  · unfold countTopk topkIdx
    rw [hsim]
    norm_num [labelsC, List.insertionSort, List.orderedInsert, List.finRange,
      List.ofFn, Fin.last]

theorem C3_amended_witness :
    predScores 3 2 3 exC 1 labelsC (simRow 1 3 featC bankC) 0 ≤
      predScores 3 2 3 exC 1 labelsC (simRow 1 3 featC bankC) 1 := by
  have hpred : knnPredict 1 3 2 3 exC 1 featC bankC labelsC = some 1 := by
    have hsim : simRow 1 3 featC bankC =
        fun mIdx => if mIdx.val = 0 then 2 else 0 := by
      funext mIdx
      unfold simRow featC bankC
      by_cases h : mIdx.val = 0 <;> simp [h, Fin.sum_univ_succ]
    unfold knnPredict
    rw [hsim]
    norm_num [predScores, topkIdx, exC, labelsC, List.insertionSort,
      List.orderedInsert, List.finRange, List.ofFn, Fin.last]
  exact (C3_amended_weighted_vote 1 3 2 3 exC 1 featC bankC labelsC 1 hpred).1 0

/-! ## Linear evaluation: the encoder is frozen

`Barlow-Twins-HSIC/linear.py` lines 169-186: the optimizer receives *all*
parameters in one list (`optim.Adam(model.parameters(), ...)` — encoder
`model.f` followed by classifier `model.fc`), but every parameter of the
encoder has `requires_grad` set to `False` first (lines 170-171). PyTorch
autograd leaves `.grad = None` on such parameters and `Adam.step` skips any
parameter whose gradient is `None` (its weight decay is applied through the
gradient, so a skipped parameter is not decayed either). -/

/-- A parameter tensor: value and `requires_grad` flag. -/
structure TParam where
  value : ℚ
  requires_grad : Bool

/-- The model of `linear.py`: encoder parameters `f`, classifier
parameters `fc`. -/
structure NetState where
  f : List TParam
  fc : List TParam

/-- `model.parameters()`: the single parameter list handed to the
optimizer — encoder parameters followed by classifier parameters. -/
def model_parameters (s : NetState) : List TParam :=
  s.f ++ s.fc

/-- `for param in model.f.parameters(): param.requires_grad = False`. -/
def freeze_encoder (ps : List TParam) : List TParam :=
  ps.map fun p => { p with requires_grad := false }

/-- `loss.backward()` populates `.grad` only for parameters that require
gradients. -/
def gradOf (p : TParam) (g : ℚ) : Option ℚ :=
  if p.requires_grad then some g else none

/-- One `Adam.step` update of one parameter: parameters whose `.grad` is
`None` are skipped; otherwise the update rule `upd` is applied. -/
def step_param (upd : ℚ → ℚ → ℚ) (p : TParam) (g : ℚ) : TParam :=
  match gradOf p g with
  | none => p
  | some gv => { p with value := upd p.value gv }

/-- The optimizer pass over its parameter list with per-parameter gradient
values `g`. -/
def apply_steps (upd : ℚ → ℚ → ℚ) : List TParam → (ℕ → ℚ) → List TParam
  | [], _ => []
  | p :: ps, g => step_param upd p (g 0) :: apply_steps upd ps fun i => g (i + 1)

/-- One training iteration of `train_val` with `is_train = True`:
`loss.backward(); train_optimizer.step()` — one optimizer pass over
`model.parameters()`, the result split back into encoder and classifier
halves. -/
def train_iteration (upd : ℚ → ℚ → ℚ) (g : ℕ → ℚ) (s : NetState) : NetState :=
  { f := (apply_steps upd (model_parameters s) g).take s.f.length,
    fc := (apply_steps upd (model_parameters s) g).drop s.f.length }

/-- `nIter` training iterations, with arbitrary per-iteration update rules
and gradients. -/
def train_loop (upds : ℕ → ℚ → ℚ → ℚ) (gs : ℕ → ℕ → ℚ) :
    ℕ → NetState → NetState
  | 0, s => s
  | t + 1, s => train_loop upds gs t (train_iteration (upds t) (gs t) s)

lemma apply_steps_append (upd : ℚ → ℚ → ℚ) :
    ∀ (l1 l2 : List TParam) (g : ℕ → ℚ),
      apply_steps upd (l1 ++ l2) g =
        apply_steps upd l1 g ++
          apply_steps upd l2 fun i => g (i + l1.length) := by
  intro l1
  induction l1 with
  | nil =>
    intro l2 g
    have hg : (fun i => g (i + ([] : List TParam).length)) = g := by
      funext i
      simp
    rw [hg]
    rfl
  | cons p l1x ih =>
    intro l2 g
    show step_param upd p (g 0) ::
        apply_steps upd (l1x ++ l2) (fun i => g (i + 1)) = _
    rw [ih l2 fun i => g (i + 1)]
    rfl

lemma apply_steps_frozen (upd : ℚ → ℚ → ℚ) :
    ∀ (ps : List TParam) (g : ℕ → ℚ),
      (∀ p ∈ ps, p.requires_grad = false) → apply_steps upd ps g = ps := by
  intro ps
  induction ps with
  | nil =>
    intro g _
    rfl
  | cons p rest ih =>
    intro g h
    have hp : p.requires_grad = false := h p (List.mem_cons_self p rest)
    unfold apply_steps step_param gradOf
    rw [hp]
    simp only [Bool.false_eq_true, if_false]
    rw [ih _ fun q hq => h q (List.mem_cons_of_mem p hq)]

lemma train_iteration_frozen (upd : ℚ → ℚ → ℚ) (g : ℕ → ℚ) (s : NetState)
    (h : ∀ p ∈ s.f, p.requires_grad = false) :
    train_iteration upd g s =
      { f := s.f, fc := apply_steps upd s.fc fun i => g (i + s.f.length) } := by
  unfold train_iteration model_parameters
  rw [apply_steps_append, apply_steps_frozen _ _ _ h, List.take_left,
    List.drop_left]

lemma train_loop_f_frozen (upds : ℕ → ℚ → ℚ → ℚ) (gs : ℕ → ℕ → ℚ) :
    ∀ (nIter : ℕ) (s : NetState), (∀ p ∈ s.f, p.requires_grad = false) →
      (train_loop upds gs nIter s).f = s.f := by
  intro nIter
  induction nIter with
  | zero =>
    intro s _
    rfl
  | succ t ih =>
    intro s h
    unfold train_loop
    rw [train_iteration_frozen _ _ _ h]
    exact ih
      ⟨s.f, apply_steps (upds t) s.fc fun i => gs t (i + s.f.length)⟩ h

/-- C5: after `freeze_encoder`, every encoder parameter has
`requires_grad = False` and no value changed; any number of optimizer
iterations (arbitrary update rules and gradients, the optimizer holding
encoder and classifier parameters alike) leaves every encoder parameter —
in fact the whole encoder parameter list — unchanged; each iteration only
updates the classifier half through the optimizer pass, and a parameter
that does require gradients is genuinely updated by the rule. -/
theorem C5_encoder_frozen (upds : ℕ → ℚ → ℚ → ℚ) (gs : ℕ → ℕ → ℚ)
    (nIter : ℕ) (s : NetState) :
    (∀ p ∈ freeze_encoder s.f, p.requires_grad = false) ∧
    (freeze_encoder s.f).map TParam.value = s.f.map TParam.value ∧
    (train_loop upds gs nIter
      { f := freeze_encoder s.f, fc := s.fc }).f = freeze_encoder s.f ∧
    (∀ (upd : ℚ → ℚ → ℚ) (g : ℕ → ℚ),
      train_iteration upd g { f := freeze_encoder s.f, fc := s.fc } =
        { f := freeze_encoder s.f,
          fc := apply_steps upd s.fc
            fun i => g (i + (freeze_encoder s.f).length) }) ∧
    (∀ (upd : ℚ → ℚ → ℚ) (v gv : ℚ),
      step_param upd ⟨v, true⟩ gv = ⟨upd v gv, true⟩) := by
  have hfrozen : ∀ p ∈ freeze_encoder s.f, p.requires_grad = false := by
    intro p hp
    unfold freeze_encoder at hp
    simp only [List.mem_map] at hp
    obtain ⟨q, -, rfl⟩ := hp
    rfl
  refine ⟨hfrozen, ?_, ?_, ?_, ?_⟩
  · unfold freeze_encoder
    rw [List.map_map]
    rfl
  · exact train_loop_f_frozen upds gs nIter _ hfrozen
  · intro upd g
    exact train_iteration_frozen upd g _ hfrozen
  · intro upd v gv
    rfl

/-! ## Schedule application

`train_one_epoch` in `barlow/barlow.py`, lines 111-117:

    iteration = len(data_loader) * epoch + iteration
    for i, param_group in enumerate(self.optimizer.param_groups):
        param_group["lr"] = self.lr_schedule[iteration]
        if i == 0:  # only the first group is regularized
            param_group["weight_decay"] = self.wd_schedule[iteration]
-/

/-- One optimizer parameter group. -/
structure ParamGroup where
  lr : ℚ
  weight_decay : ℚ

/-- `iteration = len(data_loader) * epoch + iteration`. -/
def global_iteration (niter_per_ep epoch it : ℕ) : ℕ :=
  niter_per_ep * epoch + it

/-- The `enumerate(self.optimizer.param_groups)` loop, starting at index
`i0`. -/
def apply_schedules (lr_sched wd_sched : ℕ → ℚ) (it : ℕ) :
    ℕ → List ParamGroup → List ParamGroup
  | _, [] => []
  | i0, pg :: rest =>
      { pg with
          lr := lr_sched it,
          weight_decay := if i0 = 0 then wd_sched it else pg.weight_decay } ::
        apply_schedules lr_sched wd_sched it (i0 + 1) rest

lemma apply_schedules_spec (lr_sched wd_sched : ℕ → ℚ) (it : ℕ) :
    ∀ (groups : List ParamGroup) (i0 : ℕ),
      (apply_schedules lr_sched wd_sched it i0 groups).length = groups.length ∧
      ∀ i pg, groups[i]? = some pg →
        (apply_schedules lr_sched wd_sched it i0 groups)[i]? =
          some ({ lr := lr_sched it,
                  weight_decay := if i0 + i = 0 then wd_sched it
                    else pg.weight_decay } : ParamGroup) := by
  intro groups
  induction groups with
  | nil =>
    intro i0
    refine ⟨rfl, ?_⟩
    intro i pg h
    simp at h
  | cons a rest ih =>
    intro i0
    refine ⟨by simp [apply_schedules, (ih (i0 + 1)).1], ?_⟩
    intro i pg h
    cases i with
    | zero =>
      simp only [List.getElem?_cons_zero, Option.some.injEq] at h
      subst h
      simp [apply_schedules]
    | succ i2 =>
      simp only [List.getElem?_cons_succ] at h
      have hrec := (ih (i0 + 1)).2 i2 pg h
      simp only [apply_schedules, List.getElem?_cons_succ]
      rw [hrec]
      have harith : i0 + 1 + i2 = i0 + (i2 + 1) := by omega
      rw [harith]

/-- C6: at global iteration `g = len(data_loader) * epoch + iteration`, the
schedule loop sets the learning rate of *every* parameter group to
`lr_schedule[g]`, sets the weight decay of group `0` to `wd_schedule[g]`,
and leaves the weight decay of every other group unchanged. -/
theorem C6_schedule_application (lr_sched wd_sched : ℕ → ℚ)
    (niter_per_ep epoch it : ℕ) (groups : List ParamGroup) (i : ℕ)
    (hi : i < groups.length) :
    (apply_schedules lr_sched wd_sched (global_iteration niter_per_ep epoch it)
      0 groups).length = groups.length ∧
    ∀ h2 : i < (apply_schedules lr_sched wd_sched
        (global_iteration niter_per_ep epoch it) 0 groups).length,
      ((apply_schedules lr_sched wd_sched
          (global_iteration niter_per_ep epoch it) 0 groups).get ⟨i, h2⟩).lr =
        lr_sched (global_iteration niter_per_ep epoch it) ∧
      ((apply_schedules lr_sched wd_sched
          (global_iteration niter_per_ep epoch it) 0 groups).get
            ⟨i, h2⟩).weight_decay =
        if i = 0 then wd_sched (global_iteration niter_per_ep epoch it)
        else (groups.get ⟨i, hi⟩).weight_decay := by
  obtain ⟨hlen, hspec⟩ := apply_schedules_spec lr_sched wd_sched
    (global_iteration niter_per_ep epoch it) groups 0
  refine ⟨hlen, ?_⟩
  intro h2
  have hg : groups[i]? = some (groups.get ⟨i, hi⟩) := by
    rw [List.getElem?_eq_getElem hi]
    rfl
  have happ := hspec i (groups.get ⟨i, hi⟩) hg
  rw [List.getElem?_eq_getElem h2] at happ
  have hval := Option.some.inj happ
  have : (apply_schedules lr_sched wd_sched
      (global_iteration niter_per_ep epoch it) 0 groups).get ⟨i, h2⟩ =
      ({ lr := lr_sched (global_iteration niter_per_ep epoch it),
         weight_decay := if 0 + i = 0 then
           wd_sched (global_iteration niter_per_ep epoch it)
         else (groups.get ⟨i, hi⟩).weight_decay } : ParamGroup) := by
    rw [← hval]
    rfl
  rw [this]
  simp

/-- Two concrete parameter groups used to instantiate
`C6_schedule_application`. -/
def exGroups : List ParamGroup :=
  [⟨1, 2⟩, ⟨3, 4⟩]

theorem C6_schedule_witness :
    (1 < exGroups.length) ∧
    ∀ h2 : 1 < (apply_schedules (fun g => g) (fun g => g + 7)
        (global_iteration 5 2 3) 0 exGroups).length,
      ((apply_schedules (fun g => g) (fun g => g + 7)
          (global_iteration 5 2 3) 0 exGroups).get ⟨1, h2⟩).lr =
        (global_iteration 5 2 3 : ℚ) ∧
      ((apply_schedules (fun g => g) (fun g => g + 7)
          (global_iteration 5 2 3) 0 exGroups).get ⟨1, h2⟩).weight_decay =
        if 1 = 0 then ((global_iteration 5 2 3 : ℚ) + 7)
        else (exGroups.get ⟨1, by norm_num [exGroups]⟩).weight_decay :=
  ⟨by norm_num [exGroups],
    (C6_schedule_application (fun g => g) (fun g => (g : ℚ) + 7) 5 2 3 exGroups 1
      (by norm_num [exGroups])).2⟩

/-! ## Loss finiteness guard

`train_one_epoch` in `barlow/barlow.py`, lines 123-139: after the forward
pass, `if not math.isfinite(loss.item()): ... sys.exit(1)` runs *before*
`optimizer.zero_grad()`, `backward()` and the optimizer step. -/

/-- The scalar `loss.item()`: a finite float value, NaN, or an infinity. -/
inductive LossVal where
  | finite (v : ℚ)
  | nan
  | pos_inf
  | neg_inf

/-- `math.isfinite(loss.item())`. -/
def LossVal.isFinite : LossVal → Bool
  | .finite _ => true
  | _ => false

/-- The optimizer/scaler calls the gradient-update block can make. -/
inductive TrainEffect where
  | zero_grad
  | backward
  | opt_step
  | scaler_scale_backward
  | scaler_step
  | scaler_update

/-- The effect sequence of the gradient update (lines 132-139): without
fp16, `zero_grad; backward; step`; with fp16, the scaler variants. -/
def grad_update_effects (use_fp16 : Bool) : List TrainEffect :=
  if use_fp16 then
    [TrainEffect.zero_grad, TrainEffect.scaler_scale_backward,
     TrainEffect.scaler_step, TrainEffect.scaler_update]
  else
    [TrainEffect.zero_grad, TrainEffect.backward, TrainEffect.opt_step]

/-- Outcome of one iteration tail: premature `sys.exit(code)` with the
effects performed so far, or a completed step on the state. -/
inductive IterOutcome (S : Type) where
  | exited (code : ℕ) (effects : List TrainEffect)
  | stepped (s : S) (effects : List TrainEffect)

/-- Lines 127-139 of `train_one_epoch`: the finiteness check, then the
gradient update (`do_update` is the state change of the optimizer step). -/
def train_iteration_guard (S : Type) (use_fp16 : Bool) (loss : LossVal)
    (do_update : S → S) (s : S) : IterOutcome S :=
  if loss.isFinite then
    IterOutcome.stepped (do_update s) (grad_update_effects use_fp16)
  else
    IterOutcome.exited 1 []

/-- C10: when the loss is not finite the iteration exits with status `1`
having performed none of `zero_grad`/`backward`/`step`; conversely every
iteration that reaches the optimizer step had a finite loss. -/
theorem C10_finite_loss_guard (S : Type) (use_fp16 : Bool) (loss : LossVal)
    (do_update : S → S) (s : S) :
    (loss.isFinite = false →
      train_iteration_guard S use_fp16 loss do_update s =
        IterOutcome.exited 1 []) ∧
    (∀ s2 effs, train_iteration_guard S use_fp16 loss do_update s =
        IterOutcome.stepped s2 effs →
      loss.isFinite = true ∧ effs = grad_update_effects use_fp16) := by
  constructor
  · intro h
    unfold train_iteration_guard
    rw [h]
    simp
  · intro s2 effs h
    unfold train_iteration_guard at h
    cases hf : loss.isFinite with
    | true =>
      rw [hf] at h
      simp only [if_true] at h
      cases h
      exact ⟨rfl, rfl⟩
    | false =>
      rw [hf] at h
      simp at h

theorem C10_finite_loss_witness :
    train_iteration_guard ℚ false LossVal.nan id 0 = IterOutcome.exited 1 [] :=
  (C10_finite_loss_guard ℚ false LossVal.nan id 0).1 rfl

/-! ## Checkpointing

`save_checkpoint` in `barlow/barlow.py`, lines 169-187, and its trigger at
line 165 (`if epoch % self.cfg.checkpoint.save_epoch == 0`). In
`construct_model`, `self.model` is reassigned to the
`nn.parallel.DistributedDataParallel` wrapper (line 78) — which is why line
79 keeps the alias `self.model_without_ddp = self.model.module`. DDP does
not forward arbitrary attribute access to the wrapped module, so the read
`self.model.backbone` at line 171 raises `AttributeError` before
`utils.save_on_master` (line 179) and before the log append: nothing is
saved. A second latent slip sits behind it: line 187 evaluates
`json.dumps(log_stats)` although the module never imports `json` (its
imports are `torch`, `torch.nn`, `torch.nn.functional`, `cudnn`, `time`,
`datetime`, `numpy`, `sys`, `math`, `os`, `pathlib.Path`, `pprint`,
`utils`, `AudioSetLoader`, `get_mst_model`), so even with the attribute
read fixed the main process would raise `NameError` there. -/

/-- The dict `save_checkpoint` intends to pass to `utils.save_on_master`. -/
structure SaveDict (B O C S : Type) where
  backbone : B
  opt : O
  epoch : ℕ
  config : C
  fp16_scaler : Option S

/-- `self.model` as `save_checkpoint` sees it: either a plain module, or
the `DistributedDataParallel` wrapper `construct_model` reassigned it to. -/
inductive ModelRef (M : Type) where
  | plain (m : M)
  | ddp_wrapped (m : M)

/-- `construct_model` line 78: `self.model` is the DDP wrapper. -/
def trainer_model (M : Type) (base : M) : ModelRef M :=
  ModelRef.ddp_wrapped base

/-- The attribute read `self.model.backbone` (line 171):
`DistributedDataParallel` does not forward submodule attributes (it only
exposes the wrapped module as `.module`), so the read fails on the wrapped
model. -/
def getattr_backbone (M B : Type) (backbone_of : M → B) :
    ModelRef M → Except String B
  | ModelRef.plain m => Except.ok (backbone_of m)
  | ModelRef.ddp_wrapped _ =>
      Except.error
        "AttributeError: DistributedDataParallel object has no attribute backbone"

/-- Whether the global name `json` resolves in `barlow/barlow.py`: it does
not — the module never imports it. -/
def json_imported : Bool := false

/-- What one `save_checkpoint` call leaves behind: the dict written by
`utils.save_on_master` (`none` when an exception fires first), the lines
appended to the log file, and the exception escaping the call, if any. -/
structure CkptResult (B O C S : Type) where
  saved : Option (SaveDict B O C S)
  log_lines : List String
  error : Option String

/-- `save_checkpoint(self, epoch, train_stats)`: line 171 reads
`self.model.backbone`, raising on the DDP-wrapped model before anything is
saved; were the read to succeed, the dict of backbone state, optimizer
state, `epoch + 1` and config — plus the fp16 scaler state when one
exists — would be saved, and the main process would then append the
statistics line, except that evaluating `json.dumps` raises `NameError`,
`json` being an undefined name. -/
def save_checkpoint (M B O C S : Type) (backbone_of : M → B)
    (model : ModelRef M) (opt : O) (config : C) (scaler : Option S)
    (epoch : ℕ) (stats_line : String) (is_main : Bool) : CkptResult B O C S :=
  match getattr_backbone M B backbone_of model with
  | Except.error e => ⟨none, [], some e⟩
  | Except.ok b =>
      let d : SaveDict B O C S := ⟨b, opt, epoch + 1, config, scaler⟩
      if is_main then
        (if json_imported then ⟨some d, [stats_line], none⟩
         else ⟨some d, [], some "NameError: name json is not defined"⟩)
      else ⟨some d, [], none⟩

/-- The trigger at the end of `train_one_epoch`:
`if epoch % save_epoch == 0: self.save_checkpoint(epoch, train_stats)`. -/
def maybe_save_checkpoint (M B O C S : Type) (backbone_of : M → B)
    (model : ModelRef M) (opt : O) (config : C) (scaler : Option S)
    (save_epoch epoch : ℕ) (stats_line : String) (is_main : Bool) :
    Option (CkptResult B O C S) :=
  if epoch % save_epoch = 0 then
    some (save_checkpoint M B O C S backbone_of model opt config scaler epoch
      stats_line is_main)
  else none

/-- C4 (code bug): on every epoch divisible by `save_epoch`, on every
process, the trainer's `save_checkpoint` raises `AttributeError` at the
`self.model.backbone` read — `self.model` being the DDP wrapper — so no
checkpoint is written and no log line is appended; the claimed behavior
(checkpoint with backbone/opt/`epoch + 1`/config/scaler, one JSON log line
on the main process) never happens. -/
theorem C4_checkpoint_attribute_error (M B O C S : Type) (base : M)
    (backbone_of : M → B) (o : O) (cfg : C) (scaler : Option S)
    (save_epoch epoch : ℕ) (stats_line : String) (is_main : Bool)
    (h : epoch % save_epoch = 0) :
    maybe_save_checkpoint M B O C S backbone_of (trainer_model M base) o cfg
        scaler save_epoch epoch stats_line is_main =
      some ⟨none, [],
        some "AttributeError: DistributedDataParallel object has no attribute backbone"⟩ := by
  unfold maybe_save_checkpoint save_checkpoint trainer_model getattr_backbone
  rw [if_pos h]

theorem C4_checkpoint_attr_witness :
    maybe_save_checkpoint ℕ ℕ ℕ ℕ ℕ (fun m => m + 1) (trainer_model ℕ 6) 8 9
        (some 3) 1 0 "stats" true =
      some ⟨none, [],
        some "AttributeError: DistributedDataParallel object has no attribute backbone"⟩ :=
  C4_checkpoint_attribute_error ℕ ℕ ℕ ℕ ℕ 6 (fun m => m + 1) 8 9 (some 3) 1 0
    "stats" true rfl

/-! ## Linear-evaluation metrics

`train_val` in `Barlow-Twins-HSIC/linear.py` (lines 54-101): for
`dataset == 'fsd50k'` it accumulates `out.sigmoid()` and the multi-label
targets batch by batch and returns macro-averaged
`average_precision_score` / `roc_auc_score`; for every other dataset it
accumulates top-1/top-5 correctness counts from
`torch.argsort(out, descending=True)` and returns the two accuracy
percentages. The sklearn metrics are abstracted as function parameters
`ap` / `auc` receiving the `average=` mode. -/

/-- The `average=` mode passed to the sklearn metric. -/
inductive SkAverage where
  | macAvg
  | micAvg

/-- The per-epoch statistics dictionary returned by `train_val`. -/
inductive EvalStats where
  | multilabel (mAP AUC : ℚ)
  | topk (acc1 acc5 : ℚ)

/-- `out.sigmoid()`, with the exponential as a function parameter. -/
def sigmoid (ex : ℚ → ℚ) (v : ℚ) : ℚ :=
  1 / (1 + ex (-v))

/-- `prediction = torch.argsort(out, dim=-1, descending=True)` followed by
`(prediction[:, 0:j] == target).any()`. -/
def correctTop (C j : ℕ) (out : Fin C → ℚ) (t : Fin C) : Bool :=
  decide (t ∈ (List.insertionSort (fun a b => out b ≤ out a)
    (List.finRange C)).take j)

/-- The fsd50k accumulation: `all_preds.append(out.sigmoid())` per batch,
concatenated at the end. -/
def accum_preds (C : ℕ) (ex : ℚ → ℚ) (outs : List (Fin C → ℚ)) :
    List (Fin C → ℚ) :=
  outs.foldl (fun acc o => acc ++ [fun c => sigmoid ex (o c)]) []

/-- The non-fsd50k accumulation: the running
`(total_num, total_correct_1, total_correct_5)`. -/
def accum_topk (C : ℕ) (samples : List ((Fin C → ℚ) × Fin C)) : ℕ × ℚ × ℚ :=
  samples.foldl (fun acc ot =>
    (acc.1 + 1,
     acc.2.1 + (if correctTop C 1 ot.1 ot.2 then 1 else 0),
     acc.2.2 + (if correctTop C 5 ot.1 ot.2 then 1 else 0))) (0, 0, 0)

/-- The statistics value `train_val` returns: `{'mAP': ..., 'AUC': ...}`
(macro average, sigmoided scores, multi-label targets) for fsd50k,
`{'acc_1': ..., 'acc_5': ...}` (percentages) otherwise. -/
def train_val_stats (C : ℕ) (dataset : String)
    (ap auc : SkAverage → List (Fin C → Bool) → List (Fin C → ℚ) → ℚ)
    (ex : ℚ → ℚ) (outs : List (Fin C → ℚ))
    (multi_targets : List (Fin C → Bool))
    (samples : List ((Fin C → ℚ) × Fin C)) : EvalStats :=
  if dataset = "fsd50k" then
    EvalStats.multilabel
      (ap SkAverage.macAvg multi_targets (accum_preds C ex outs))
      (auc SkAverage.macAvg multi_targets (accum_preds C ex outs))
  else
    EvalStats.topk
      ((accum_topk C samples).2.1 / ((accum_topk C samples).1 : ℚ) * 100)
      ((accum_topk C samples).2.2 / ((accum_topk C samples).1 : ℚ) * 100)

lemma accum_preds_eq_map (C : ℕ) (ex : ℚ → ℚ) (outs : List (Fin C → ℚ)) :
    accum_preds C ex outs = outs.map fun o c => sigmoid ex (o c) := by
  unfold accum_preds
  suffices h : ∀ (l : List (Fin C → ℚ)) (acc : List (Fin C → ℚ)),
      l.foldl (fun acc o => acc ++ [fun c => sigmoid ex (o c)]) acc =
        acc ++ l.map fun o c => sigmoid ex (o c) by
    simpa using h outs []
  intro l
  induction l with
  | nil =>
    intro acc
    simp
  | cons o rest ih =>
    intro acc
    simp only [List.foldl_cons, List.map_cons]
    rw [ih]
    simp

lemma accum_topk_eq_count (C : ℕ) (samples : List ((Fin C → ℚ) × Fin C)) :
    accum_topk C samples =
      (samples.length,
       ((samples.countP fun ot => correctTop C 1 ot.1 ot.2 : ℕ) : ℚ),
       ((samples.countP fun ot => correctTop C 5 ot.1 ot.2 : ℕ) : ℚ)) := by
  unfold accum_topk
  suffices h : ∀ (l : List ((Fin C → ℚ) × Fin C)) (a : ℕ) (b1 b5 : ℚ),
      l.foldl (fun acc ot =>
        (acc.1 + 1,
         acc.2.1 + (if correctTop C 1 ot.1 ot.2 then 1 else 0),
         acc.2.2 + (if correctTop C 5 ot.1 ot.2 then 1 else 0))) (a, b1, b5) =
      (a + l.length,
       b1 + ((l.countP fun ot => correctTop C 1 ot.1 ot.2 : ℕ) : ℚ),
       b5 + ((l.countP fun ot => correctTop C 5 ot.1 ot.2 : ℕ) : ℚ)) by
    simpa using h samples 0 0 0
  intro l
  induction l with
  | nil =>
    intro a b1 b5
    simp
  | cons ot rest ih =>
    intro a b1 b5
    simp only [List.foldl_cons, List.length_cons, List.countP_cons]
    rw [ih]
    simp only [Prod.mk.injEq]
    refine ⟨by omega, ?_, ?_⟩
    · by_cases h1 : correctTop C 1 ot.1 ot.2 = true <;> simp [h1] <;>
        push_cast <;> ring
    · by_cases h5 : correctTop C 5 ot.1 ot.2 = true <;> simp [h5] <;>
        push_cast <;> ring

/-- C7: `train_val` returns multi-label metrics — macro-averaged
`average_precision_score` and `roc_auc_score` of the sigmoided outputs
against the multi-label targets — if and only if the dataset is `'fsd50k'`;
for every other dataset it returns the top-1 and top-5 accuracy
percentages. -/
theorem C7_eval_metrics_by_dataset (C : ℕ) (dataset : String)
    (ap auc : SkAverage → List (Fin C → Bool) → List (Fin C → ℚ) → ℚ)
    (ex : ℚ → ℚ) (outs : List (Fin C → ℚ))
    (multi_targets : List (Fin C → Bool))
    (samples : List ((Fin C → ℚ) × Fin C)) :
    ((∃ a b, train_val_stats C dataset ap auc ex outs multi_targets samples =
        EvalStats.multilabel a b) ↔ dataset = "fsd50k") ∧
    (dataset = "fsd50k" →
      train_val_stats C dataset ap auc ex outs multi_targets samples =
        EvalStats.multilabel
          (ap SkAverage.macAvg multi_targets
            (outs.map fun o c => sigmoid ex (o c)))
          (auc SkAverage.macAvg multi_targets
            (outs.map fun o c => sigmoid ex (o c)))) ∧
    (dataset ≠ "fsd50k" →
      train_val_stats C dataset ap auc ex outs multi_targets samples =
        EvalStats.topk
          (((samples.countP fun ot => correctTop C 1 ot.1 ot.2 : ℕ) : ℚ) /
            (samples.length : ℚ) * 100)
          (((samples.countP fun ot => correctTop C 5 ot.1 ot.2 : ℕ) : ℚ) /
            (samples.length : ℚ) * 100)) := by
  have hfsd : dataset = "fsd50k" →
      train_val_stats C dataset ap auc ex outs multi_targets samples =
        EvalStats.multilabel
          (ap SkAverage.macAvg multi_targets
            (outs.map fun o c => sigmoid ex (o c)))
          (auc SkAverage.macAvg multi_targets
            (outs.map fun o c => sigmoid ex (o c))) := by
    intro h
    unfold train_val_stats
    rw [if_pos h, accum_preds_eq_map]
  have hother : dataset ≠ "fsd50k" →
      train_val_stats C dataset ap auc ex outs multi_targets samples =
        EvalStats.topk
          (((samples.countP fun ot => correctTop C 1 ot.1 ot.2 : ℕ) : ℚ) /
            (samples.length : ℚ) * 100)
          (((samples.countP fun ot => correctTop C 5 ot.1 ot.2 : ℕ) : ℚ) /
            (samples.length : ℚ) * 100) := by
    intro h
    unfold train_val_stats
    rw [if_neg h, accum_topk_eq_count]
  refine ⟨⟨?_, ?_⟩, hfsd, hother⟩
  · rintro ⟨a, b, hab⟩
    by_contra h
    rw [hother h] at hab
    exact EvalStats.noConfusion hab
  · intro h
    exact ⟨_, _, hfsd h⟩

/-- A one-sample batch used to instantiate `C7_eval_metrics_by_dataset`. -/
def exSamples : List ((Fin 1 → ℚ) × Fin 1) :=
  [(fun _ => 0, 0)]

theorem C7_eval_metrics_witness :
    ("cifar10" ≠ "fsd50k") ∧
    train_val_stats 1 "cifar10" (fun _ _ _ => 0) (fun _ _ _ => 0) id
        [] [] exSamples =
      EvalStats.topk
        (((exSamples.countP fun ot => correctTop 1 1 ot.1 ot.2 : ℕ) : ℚ) /
          (exSamples.length : ℚ) * 100)
        (((exSamples.countP fun ot => correctTop 1 5 ot.1 ot.2 : ℕ) : ℚ) /
          (exSamples.length : ℚ) * 100) :=
  ⟨by decide,
    (C7_eval_metrics_by_dataset 1 "cifar10" (fun _ _ _ => 0) (fun _ _ _ => 0)
      id [] [] exSamples).2.2 (by decide)⟩

/-! ## Projector head

`BarlowTwins.__init__` in `barlow/barlow.py`, lines 199-207:

    layers = []
    for i in range(len(sizes) - 2):
        layers.append(nn.Linear(sizes[i], sizes[i + 1], bias=False))
        layers.append(nn.BatchNorm1d(sizes[i + 1]))
        layers.append(nn.ReLU(inplace=True))
    layers.append(nn.Linear(sizes[-2], sizes[-1], bias=False))

and `construct_model`, lines 64-65: when `cfg.model.projection.sizes is
None`, the sizes default to `[embed_dim, 4*embed_dim, 4*embed_dim,
4*embed_dim]`. -/

/-- The layer kinds the projector is assembled from. -/
inductive Layer where
  | linear (inDim outDim : ℕ) (bias : Bool)
  | batch_norm (dim : ℕ)
  | relu

/-- The projector construction loop. -/
def projector_layers (sizes : List ℕ) : List Layer :=
  ((List.range (sizes.length - 2)).flatMap fun i =>
    [Layer.linear (sizes.getD i 0) (sizes.getD (i + 1) 0) false,
     Layer.batch_norm (sizes.getD (i + 1) 0),
     Layer.relu]) ++
  [Layer.linear (sizes.getD (sizes.length - 2) 0)
    (sizes.getD (sizes.length - 1) 0) false]

/-- The configured projection sizes after `construct_model`'s `None`
default. -/
def projection_sizes_cfg (cfgSizes : Option (List ℕ)) (embed_dim : ℕ) :
    List ℕ :=
  match cfgSizes with
  | none => [embed_dim, 4 * embed_dim, 4 * embed_dim, 4 * embed_dim]
  | some s => s

lemma projector_layers_pair (a b : ℕ) :
    projector_layers [a, b] = [Layer.linear a b false] := by
  rfl

lemma projector_layers_cons (a b c2 : ℕ) (rest : List ℕ) :
    projector_layers (a :: b :: c2 :: rest) =
      [Layer.linear a b false, Layer.batch_norm b, Layer.relu] ++
        projector_layers (b :: c2 :: rest) := by
  unfold projector_layers
  simp only [List.length_cons]
  have hlen1 : rest.length + 1 + 1 + 1 - 2 = (rest.length + 1 + 1 - 2) + 1 := by
    omega
  rw [hlen1, List.range_succ_eq_map, List.flatMap_cons, List.flatMap_map]
  simp only [List.getD_cons_zero, List.getD_cons_succ, Nat.succ_eq_add_one]
  have h2 : rest.length + 1 + 1 + 1 - 1 = (rest.length + 1 + 1 - 1) + 1 := by
    omega
  rw [h2, List.getD_cons_succ, List.append_assoc]

lemma projector_layers_length :
    ∀ (rest : List ℕ) (a b : ℕ),
      (projector_layers (a :: b :: rest)).length = 3 * rest.length + 1 := by
  intro rest
  induction rest with
  | nil =>
    intro a b
    rfl
  | cons c2 rest2 ih =>
    intro a b
    rw [projector_layers_cons, List.length_append, ih b c2]
    simp only [List.length_cons, List.length_nil]
    omega

/-- C8: the projector is `n - 2` blocks of (bias-free Linear
`sizes[i] → sizes[i+1]`, BatchNorm1d, ReLU) followed by one final bias-free
Linear `sizes[n-2] → sizes[n-1]` — captured by the base case, the unrolling
recurrence, and the layer count `3 * (n - 2) + 1`; and `None` configured
projection sizes default to `[embed_dim, 4*embed_dim, 4*embed_dim,
4*embed_dim]`. -/
theorem C8_projector_structure :
    (∀ a b : ℕ, projector_layers [a, b] = [Layer.linear a b false]) ∧
    (∀ (a b c2 : ℕ) (rest : List ℕ),
      projector_layers (a :: b :: c2 :: rest) =
        [Layer.linear a b false, Layer.batch_norm b, Layer.relu] ++
          projector_layers (b :: c2 :: rest)) ∧
    (∀ (sizes : List ℕ), 2 ≤ sizes.length →
      (projector_layers sizes).length = 3 * (sizes.length - 2) + 1) ∧
    (∀ e : ℕ, projection_sizes_cfg none e = [e, 4 * e, 4 * e, 4 * e]) ∧
    (∀ (s : List ℕ) (e : ℕ), projection_sizes_cfg (some s) e = s) := by
  refine ⟨projector_layers_pair, projector_layers_cons, ?_, fun e => rfl,
    fun s e => rfl⟩
  intro sizes hlen
  match sizes, hlen with
  | a :: b :: rest, _ =>
    rw [projector_layers_length rest a b]
    simp only [List.length_cons]
    omega

theorem C8_projector_witness :
    2 ≤ ([5, 20, 20, 20] : List ℕ).length ∧
    (projector_layers [5, 20, 20, 20]).length =
      3 * (([5, 20, 20, 20] : List ℕ).length - 2) + 1 :=
  ⟨by norm_num, C8_projector_structure.2.2.1 [5, 20, 20, 20] (by norm_num)⟩
